import Mathlib

/-!
Shallow embedding of the `rust_huffman_compression` crate.

The crate packs input bytes into a bitstream using a 256-entry code table.
Machine integers are modelled as `Nat` with explicit `% 2 ^ 32` where u32
overflow matters; operations that can panic in Rust (shift amounts ≥ 32,
u8 arithmetic overflow) are modelled as `Except String` with the panic
message as the error.

Two implementations coexist in the crate and are both embedded here:
* `CompressorBuffer` / `Modular.*` — `src/compressor/buffer.rs` and
  `src/compressor.rs` (the modular implementation);
* `Lib.*` — the inline `Compressor` in `src/lib.rs`, which also hosts the
  public `Huffman::compress` driver.
-/

set_option maxRecDepth 8192

deriving instance DecidableEq for Except

namespace HuffmanRS

/-- State of the bit accumulator: the `compressed_bits: u32` register and the
`compressed_bit_count: u8` fill counter shared by both Rust implementations. -/
structure CompressorBuffer where
  compressed_bits : Nat
  compressed_bit_count : Nat
deriving DecidableEq, Repr

/-- Constructor `CompressorBuffer::new` from `src/compressor/buffer.rs`. -/
def CompressorBuffer.new : CompressorBuffer :=
  { compressed_bits := 0, compressed_bit_count := 0 }

/-- Embeds `CompressorBuffer::write_bits` (`src/compressor/buffer.rs`).
Rust panics on `<<` when the shift amount is ≥ 32 ("attempt to shift left
with overflow") and on `u8` addition overflow; a shift amount < 32 silently
discards bits shifted past bit 31 (hence the `% 2 ^ 32`). -/
def CompressorBuffer.write_bits (b : CompressorBuffer) (value : Nat) (bit_count : Nat) :
    Except String CompressorBuffer :=
  if 32 ≤ bit_count then
    .error "attempt to shift left with overflow"
  else if 256 ≤ b.compressed_bit_count + bit_count then
    .error "attempt to add with overflow"
  else
    .ok { compressed_bits := ((b.compressed_bits <<< bit_count) % 2 ^ 32) ||| value,
          compressed_bit_count := b.compressed_bit_count + bit_count }

/-- Embeds `CompressorBuffer::read_byte` (`src/compressor/buffer.rs`).
Returns `none` when fewer than 8 bits are queued; Rust panics on
`compressed_bits >> new_count` when `new_count ≥ 32`. The `% 256` is the
`as u8` cast of the extracted byte. -/
def CompressorBuffer.read_byte (b : CompressorBuffer) :
    Except String (Option Nat × CompressorBuffer) :=
  if b.compressed_bit_count < 8 then
    .ok (none, b)
  else
    let new_count := b.compressed_bit_count - 8
    if 32 ≤ new_count then
      .error "attempt to shift right with overflow"
    else
      let byte := (b.compressed_bits >>> new_count) % 256
      let mask := if 0 < new_count then (2 ^ 32 - 1) >>> (32 - new_count) else 0
      .ok (some byte,
           { compressed_bits := b.compressed_bits &&& mask,
             compressed_bit_count := new_count })

/-- Embeds `CompressorBuffer::byte_boundary_offset` (`src/compressor/buffer.rs`). -/
def CompressorBuffer.byte_boundary_offset (b : CompressorBuffer) : Nat :=
  b.compressed_bit_count % 8

/-- The 256-entry code table (`HuffmanTable` in `src/huffman_table.rs` and
`src/lib.rs`): `values` and `bit_counts` indexed by the raw byte. -/
structure HuffmanTable where
  values : Fin 256 → Nat
  bit_counts : Fin 256 → Nat

/-- Embeds `HuffmanTable::get_compressed_value` (`src/huffman_table.rs`). -/
def HuffmanTable.get_compressed_value (t : HuffmanTable) (uncompressed_byte : Fin 256) : Nat :=
  t.values uncompressed_byte

/-- Embeds `HuffmanTable::get_compressed_value_bit_count` (`src/huffman_table.rs`). -/
def HuffmanTable.get_compressed_value_bit_count (t : HuffmanTable)
    (uncompressed_byte : Fin 256) : Nat :=
  t.bit_counts uncompressed_byte

/-- The optional end-of-stream marker (`TerminalCode` in `src/lib.rs`). -/
structure TerminalCode where
  bit_count : Nat
  value : Nat

namespace Modular

/-- Embeds `Compressor::compress_byte` from `src/compressor.rs` (table lookup
through the `HuffmanTable` getters, then a buffer write). -/
def compress_byte (t : HuffmanTable) (c : CompressorBuffer) (byte : Fin 256) :
    Except String CompressorBuffer :=
  c.write_bits (t.get_compressed_value byte) (t.get_compressed_value_bit_count byte)

/-- Embeds `Compressor::get_compressed_byte` from `src/compressor.rs`
(delegates to `CompressorBuffer::read_byte`; also the `Iterator::next` body). -/
def get_compressed_byte (c : CompressorBuffer) : Except String (Option Nat × CompressorBuffer) :=
  c.read_byte

/-- Embeds `Compressor::append_terminal_code` from `src/compressor.rs`. -/
def append_terminal_code (c : CompressorBuffer) (tc : TerminalCode) :
    Except String CompressorBuffer :=
  c.write_bits tc.value tc.bit_count

/-- Embeds `Compressor::end` from `src/compressor.rs` (named `finish` because
`end` is a Lean keyword): pad with zero bits to the next byte boundary using
`byte_boundary_offset`. -/
def finish (c : CompressorBuffer) : Except String CompressorBuffer :=
  let byte_boundary_offset := c.byte_boundary_offset
  if byte_boundary_offset ≠ 0 then
    c.write_bits 0 (8 - byte_boundary_offset)
  else
    .ok c

end Modular

namespace Lib

/-- Embeds `Compressor::buffer_write` from `src/lib.rs` (the inline
implementation; body identical to `CompressorBuffer::write_bits`). -/
def buffer_write (c : CompressorBuffer) (value : Nat) (bit_count : Nat) :
    Except String CompressorBuffer :=
  if 32 ≤ bit_count then
    .error "attempt to shift left with overflow"
  else if 256 ≤ c.compressed_bit_count + bit_count then
    .error "attempt to add with overflow"
  else
    .ok { compressed_bits := ((c.compressed_bits <<< bit_count) % 2 ^ 32) ||| value,
          compressed_bit_count := c.compressed_bit_count + bit_count }

/-- Embeds `Compressor::buffer_read_byte` from `src/lib.rs`: unlike
`CompressorBuffer::read_byte` it has no `< 8` guard of its own, so the
`u8` subtraction `compressed_bit_count - 8` panics when fewer than 8 bits
are queued (its caller guards the call). -/
def buffer_read_byte (c : CompressorBuffer) : Except String (Nat × CompressorBuffer) :=
  if c.compressed_bit_count < 8 then
    .error "attempt to subtract with overflow"
  else
    let new_count := c.compressed_bit_count - 8
    if 32 ≤ new_count then
      .error "attempt to shift right with overflow"
    else
      let byte := (c.compressed_bits >>> new_count) % 256
      let mask := if 0 < new_count then (2 ^ 32 - 1) >>> (32 - new_count) else 0
      .ok (byte,
           { compressed_bits := c.compressed_bits &&& mask,
             compressed_bit_count := new_count })

/-- Embeds `Compressor::get_compressed_byte` from `src/lib.rs`: guard on the
fill count, then delegate to `buffer_read_byte`. -/
def get_compressed_byte (c : CompressorBuffer) : Except String (Option Nat × CompressorBuffer) :=
  if c.compressed_bit_count < 8 then
    .ok (none, c)
  else
    (buffer_read_byte c).map (fun p => (some p.1, p.2))

/-- Embeds `Compressor::compress_byte` from `src/lib.rs` (direct array
indexing of the table fields). -/
def compress_byte (t : HuffmanTable) (c : CompressorBuffer) (byte : Fin 256) :
    Except String CompressorBuffer :=
  buffer_write c (t.values byte) (t.bit_counts byte)

/-- Embeds `Compressor::append_terminal_code` from `src/lib.rs`. -/
def append_terminal_code (c : CompressorBuffer) (tc : TerminalCode) :
    Except String CompressorBuffer :=
  buffer_write c tc.value tc.bit_count

/-- Embeds `Compressor::end` from `src/lib.rs` (named `finish` because `end`
is a Lean keyword). -/
def finish (c : CompressorBuffer) : Except String CompressorBuffer :=
  let byte_boundary_offset := c.compressed_bit_count % 8
  if byte_boundary_offset ≠ 0 then
    buffer_write c 0 (8 - byte_boundary_offset)
  else
    .ok c

/-- Fuel-indexed unfolding of the drain loop
`while let Some(output_byte) = compressor.get_compressed_byte() { output.push(output_byte) }`
in `Huffman::compress` (`src/lib.rs`). Each successful read removes 8 bits
from the accumulator, so a fuel of `compressed_bit_count` suffices for the
loop to run to its `None` exit. -/
def drainAux : Nat → CompressorBuffer → List Nat → Except String (List Nat × CompressorBuffer)
  | 0, c, output => .ok (output, c)
  | fuel + 1, c, output =>
    match get_compressed_byte c with
    | .error e => .error e
    | .ok (none, c1) => .ok (output, c1)
    | .ok (some v, c1) => drainAux fuel c1 (output ++ [v])

/-- The drain loop of `Huffman::compress`, instantiated with enough fuel. -/
def drain (c : CompressorBuffer) (output : List Nat) :
    Except String (List Nat × CompressorBuffer) :=
  drainAux c.compressed_bit_count c output

/-- The `for byte in src` loop of `Huffman::compress` (`src/lib.rs`):
compress each input byte, then drain every available output byte. -/
def compressLoop (t : HuffmanTable) :
    List (Fin 256) → CompressorBuffer → List Nat → Except String (List Nat × CompressorBuffer)
  | [], c, output => .ok (output, c)
  | byte :: rest, c, output =>
    match compress_byte t c byte with
    | .error e => .error e
    | .ok c1 =>
      match drain c1 output with
      | .error e => .error e
      | .ok (output1, c2) => compressLoop t rest c2 output1

end Lib

/-- The public `Huffman` struct from `src/lib.rs`. -/
structure Huffman where
  table : HuffmanTable
  terminal_code : Option TerminalCode

/-- Embeds `Huffman::new` (`src/lib.rs`). -/
def Huffman.new (table : HuffmanTable) (terminal_code : Option TerminalCode) : Huffman :=
  { table := table, terminal_code := terminal_code }

/-- Embeds `Huffman::compress` (`src/lib.rs`): start from a fresh
accumulator, feed every input byte (draining after each), append the
terminal code when configured, pad with `end`, and drain the remainder.
The returned list is the final contents of the caller's `output` vector. -/
def Huffman.compress (h : Huffman) (src : List (Fin 256)) (output : List Nat) :
    Except String (List Nat) :=
  match Lib.compressLoop h.table src CompressorBuffer.new output with
  | .error e => .error e
  | .ok (output1, c1) =>
    match (match h.terminal_code with
           | some tc => Lib.append_terminal_code c1 tc
           | none => .ok c1) with
    | .error e => .error e
    | .ok c2 =>
      match Lib.finish c2 with
      | .error e => .error e
      | .ok c3 => (Lib.drain c3 output1).map Prod.fst

namespace Modular

/-- Drain loop over the modular implementation, with the same shape as
`Lib.drainAux`; used to compare the two implementations. -/
def drainAux : Nat → CompressorBuffer → List Nat → Except String (List Nat × CompressorBuffer)
  | 0, c, output => .ok (output, c)
  | fuel + 1, c, output =>
    match get_compressed_byte c with
    | .error e => .error e
    | .ok (none, c1) => .ok (output, c1)
    | .ok (some v, c1) => drainAux fuel c1 (output ++ [v])

/-- Drain over the modular implementation. -/
def drain (c : CompressorBuffer) (output : List Nat) :
    Except String (List Nat × CompressorBuffer) :=
  drainAux c.compressed_bit_count c output

/-- Per-byte loop of a `compress` driver over the modular implementation. -/
def compressLoop (t : HuffmanTable) :
    List (Fin 256) → CompressorBuffer → List Nat → Except String (List Nat × CompressorBuffer)
  | [], c, output => .ok (output, c)
  | byte :: rest, c, output =>
    match compress_byte t c byte with
    | .error e => .error e
    | .ok c1 =>
      match drain c1 output with
      | .error e => .error e
      | .ok (output1, c2) => compressLoop t rest c2 output1

/-- The `Huffman::compress` driver re-targeted at the modular
`Compressor`/`CompressorBuffer` implementation. -/
def compress (h : Huffman) (src : List (Fin 256)) (output : List Nat) :
    Except String (List Nat) :=
  match compressLoop h.table src CompressorBuffer.new output with
  | .error e => .error e
  | .ok (output1, c1) =>
    match (match h.terminal_code with
           | some tc => append_terminal_code c1 tc
           | none => .ok c1) with
    | .error e => .error e
    | .ok c2 =>
      match finish c2 with
      | .error e => .error e
      | .ok c3 => (drain c3 output1).map Prod.fst

end Modular

/-! ## Specification-level bit views -/

/-- The low `len` bits of `x`, most significant first. -/
def bitsOf (x : Nat) : Nat → List Bool
  | 0 => []
  | n + 1 => x.testBit n :: bitsOf x n

/-- A byte read bit-by-bit, MSB first. -/
def byteBits (b : Nat) : List Bool :=
  bitsOf b 8

/-- A byte sequence read bit-by-bit, MSB first within each byte. -/
def bitstream (out : List Nat) : List Bool :=
  out.flatMap byteBits

/-- The live bits of the accumulator, oldest (highest) first. -/
def accBits (c : CompressorBuffer) : List Bool :=
  bitsOf c.compressed_bits c.compressed_bit_count

/-- The table code of one input byte, MSB first. -/
def codeBits (t : HuffmanTable) (b : Fin 256) : List Bool :=
  bitsOf (t.values b) (t.bit_counts b)

/-- The bits of the optional terminal marker. -/
def markerBits : Option TerminalCode → List Bool
  | none => []
  | some tc => bitsOf tc.value tc.bit_count

/-- Total number of code bits of an input sequence. -/
def totalBitCount (t : HuffmanTable) (src : List (Fin 256)) : Nat :=
  (src.map fun b => t.bit_counts b).sum

/-- Checks that every per-byte write in a run of `Huffman::compress` starts
from an accumulator fill of `count` and stays within 32 live bits; the fill
before each write is the previous fill plus the code length, reduced mod 8
by the intervening drain. -/
def writesOkGo (t : HuffmanTable) : Nat → List (Fin 256) → Bool
  | _, [] => true
  | count, b :: rest =>
    decide (count + t.bit_counts b ≤ 32) &&
      writesOkGo t ((count + t.bit_counts b) % 8) rest

/-- The claim precondition "no intermediate write exceeds 32 live bits" for a
full `Huffman::compress` run: every per-byte write and the terminal-marker
write keep `fill_count + bit_length ≤ 32` (the padding write then cannot
exceed 32 either). -/
def writesOk (t : HuffmanTable) (marker : Option TerminalCode) (src : List (Fin 256)) : Bool :=
  writesOkGo t 0 src &&
    (match marker with
     | some tc => decide (totalBitCount t src % 8 + tc.bit_count ≤ 32)
     | none => true)

/-- Codes and marker fit their declared bit lengths and the u32/u8 ranges:
the "no set bits at or above the declared bit length" precondition. -/
def TableFits (t : HuffmanTable) : Prop :=
  ∀ b : Fin 256, t.values b < 2 ^ t.bit_counts b ∧ t.bit_counts b < 256

/-- The marker code fits its declared bit length and the u8 range. -/
def MarkerFits : Option TerminalCode → Prop
  | none => True
  | some tc => tc.value < 2 ^ tc.bit_count ∧ tc.bit_count < 256

instance (t : HuffmanTable) : Decidable (TableFits t) := by
  unfold TableFits; infer_instance

instance (m : Option TerminalCode) : Decidable (MarkerFits m) := by
  cases m <;> simp [MarkerFits] <;> infer_instance

/-- Number of bits of the optional terminal marker. -/
def markerLen : Option TerminalCode → Nat
  | none => 0
  | some tc => tc.bit_count

/-- A concrete code table used to instantiate the theorems on concrete
inputs: `0xDB ↦ (0b11111, 5)`, `0xE4 ↦ (0b1, 1)`, `0x92 ↦ (0b1010, 4)`,
every other byte `(0, 0)` (mirroring tables from the crate's tests). -/
def exampleTable : HuffmanTable :=
  { values := fun b =>
      if b.val = 0xDB then 31 else if b.val = 0xE4 then 1 else
      if b.val = 0x92 then 10 else 0,
    bit_counts := fun b =>
      if b.val = 0xDB then 5 else if b.val = 0xE4 then 1 else
      if b.val = 0x92 then 4 else 0 }

/-! ## Bit-list lemmas -/

theorem length_bitsOf (x n : Nat) : (bitsOf x n).length = n := by
  induction n with
  | zero => rfl
  | succ n ih => simp [bitsOf, ih]

theorem bitsOf_zero (n : Nat) : bitsOf 0 n = List.replicate n false := by
  induction n with
  | zero => rfl
  | succ n ih => simp [bitsOf, ih, List.replicate_succ]

theorem bitsOf_mod_ge (x n : Nat) : ∀ k, k ≤ n → bitsOf (x % 2 ^ n) k = bitsOf x k := by
  intro k
  induction k with
  | zero => intro _; rfl
  | succ k ih =>
    intro hk
    have hkn : k < n := by omega
    simp [bitsOf, ih (by omega), Nat.testBit_mod_two_pow, hkn]

theorem bitsOf_mod (x n : Nat) : bitsOf (x % 2 ^ n) n = bitsOf x n :=
  bitsOf_mod_ge x n n le_rfl

theorem bitsOf_append {v n : Nat} (a m : Nat) (hv : v < 2 ^ n) :
    bitsOf (a * 2 ^ n + v) (m + n) = bitsOf a m ++ bitsOf v n := by
  induction m with
  | zero =>
    have h1 : bitsOf (a * 2 ^ n + v) n = bitsOf ((a * 2 ^ n + v) % 2 ^ n) n :=
      (bitsOf_mod _ n).symm
    have h2 : (a * 2 ^ n + v) % 2 ^ n = v := by
      rw [Nat.add_comm, Nat.add_mul_mod_self_right, Nat.mod_eq_of_lt hv]
    simpa [h2] using h1
  | succ m ih =>
    have harr : m + 1 + n = (m + n) + 1 := by omega
    rw [harr]
    have htop : (a * 2 ^ n + v).testBit (m + n) = a.testBit m := by
      rw [Nat.mul_comm a (2 ^ n), Nat.testBit_mul_pow_two_add a hv]
      simp [Nat.add_sub_cancel_left]
    simp [bitsOf, htop, ih]

theorem length_byteBits (b : Nat) : (byteBits b).length = 8 :=
  length_bitsOf b 8

theorem bitstream_nil : bitstream [] = [] := rfl

theorem bitstream_append (xs ys : List Nat) :
    bitstream (xs ++ ys) = bitstream xs ++ bitstream ys := by
  simp [bitstream]

theorem bitstream_length (xs : List Nat) : (bitstream xs).length = 8 * xs.length := by
  induction xs with
  | nil => rfl
  | cons x xs ih => simp [bitstream, length_byteBits] at ih ⊢; omega

theorem length_flatMap_codeBits (t : HuffmanTable) (src : List (Fin 256)) :
    (src.flatMap (codeBits t)).length = totalBitCount t src := by
  induction src with
  | nil => rfl
  | cons b rest ih => simp [codeBits, totalBitCount, length_bitsOf] at ih ⊢; omega

/-! ## Accumulator operation lemmas -/

theorem mask_eq {n : Nat} (hn : n < 32) : (2 ^ 32 - 1) >>> (32 - n) = 2 ^ n - 1 := by
  apply Nat.eq_of_testBit_eq
  intro j
  rw [Nat.testBit_shiftRight, Nat.testBit_two_pow_sub_one, Nat.testBit_two_pow_sub_one]
  exact decide_eq_decide.mpr (by omega)

theorem write_bits_ok (c : CompressorBuffer) (v bc : Nat) (hbc : bc < 32)
    (hcount : c.compressed_bit_count + bc < 256) :
    c.write_bits v bc =
      .ok { compressed_bits := ((c.compressed_bits <<< bc) % 2 ^ 32) ||| v,
            compressed_bit_count := c.compressed_bit_count + bc } := by
  unfold CompressorBuffer.write_bits
  rw [if_neg (by omega), if_neg (by omega)]

theorem write_bits_err (c : CompressorBuffer) (v bc : Nat) (hbc : 32 ≤ bc) :
    c.write_bits v bc = .error "attempt to shift left with overflow" := by
  unfold CompressorBuffer.write_bits
  rw [if_pos hbc]

theorem write_bits_isOk_iff (c : CompressorBuffer) (v bc : Nat) :
    (c.write_bits v bc).isOk ↔ bc < 32 ∧ c.compressed_bit_count + bc < 256 := by
  unfold CompressorBuffer.write_bits
  by_cases h1 : 32 ≤ bc
  · rw [if_pos h1]; simp [Except.isOk, Except.toBool]; omega
  · rw [if_neg h1]
    by_cases h2 : 256 ≤ c.compressed_bit_count + bc
    · rw [if_pos h2]; simp [Except.isOk, Except.toBool]; omega
    · rw [if_neg h2]; simp [Except.isOk, Except.toBool]; omega

theorem write_bits_ok_val (c : CompressorBuffer) {v bc : Nat}
    (hv : v < 2 ^ bc) (hinv : c.compressed_bits < 2 ^ c.compressed_bit_count)
    (hle : c.compressed_bit_count + bc ≤ 32) (hbc : bc < 32) :
    c.write_bits v bc =
      .ok { compressed_bits := c.compressed_bits * 2 ^ bc + v,
            compressed_bit_count := c.compressed_bit_count + bc } := by
  rw [write_bits_ok c v bc hbc (by omega)]
  have hsh : c.compressed_bits <<< bc = c.compressed_bits * 2 ^ bc := Nat.shiftLeft_eq _ _
  have hlt : c.compressed_bits * 2 ^ bc + v < 2 ^ (c.compressed_bit_count + bc) := by
    have h1 : c.compressed_bits + 1 ≤ 2 ^ c.compressed_bit_count := hinv
    calc c.compressed_bits * 2 ^ bc + v
        < c.compressed_bits * 2 ^ bc + 2 ^ bc := by omega
      _ = (c.compressed_bits + 1) * 2 ^ bc := by ring
      _ ≤ 2 ^ c.compressed_bit_count * 2 ^ bc :=
          Nat.mul_le_mul_right _ h1
      _ = 2 ^ (c.compressed_bit_count + bc) := by rw [← pow_add]
  have hlt32 : c.compressed_bits * 2 ^ bc < 2 ^ 32 := by
    have : (2 : Nat) ^ (c.compressed_bit_count + bc) ≤ 2 ^ 32 :=
      Nat.pow_le_pow_right (by norm_num) hle
    omega
  have hmod : (c.compressed_bits <<< bc) % 2 ^ 32 = c.compressed_bits * 2 ^ bc := by
    rw [hsh, Nat.mod_eq_of_lt hlt32]
  have hor : c.compressed_bits * 2 ^ bc ||| v = c.compressed_bits * 2 ^ bc + v := by
    rw [Nat.mul_comm c.compressed_bits (2 ^ bc), ← Nat.mul_add_lt_is_or hv]
  rw [hmod, hor]

theorem accBits_write (c : CompressorBuffer) {v bc : Nat}
    (hv : v < 2 ^ bc) :
    accBits { compressed_bits := c.compressed_bits * 2 ^ bc + v,
              compressed_bit_count := c.compressed_bit_count + bc } =
      accBits c ++ bitsOf v bc := by
  unfold accBits
  exact bitsOf_append c.compressed_bits c.compressed_bit_count hv

theorem read_byte_lt (c : CompressorBuffer) (h : c.compressed_bit_count < 8) :
    c.read_byte = .ok (none, c) := by
  unfold CompressorBuffer.read_byte
  rw [if_pos h]

theorem read_byte_ok (c : CompressorBuffer) (h8 : 8 ≤ c.compressed_bit_count)
    (h39 : c.compressed_bit_count ≤ 39) :
    c.read_byte =
      .ok (some ((c.compressed_bits >>> (c.compressed_bit_count - 8)) % 256),
           { compressed_bits := c.compressed_bits % 2 ^ (c.compressed_bit_count - 8),
             compressed_bit_count := c.compressed_bit_count - 8 }) := by
  unfold CompressorBuffer.read_byte
  rw [if_neg (by omega), if_neg (by omega)]
  have hmask : (if 0 < c.compressed_bit_count - 8 then
        (2 ^ 32 - 1) >>> (32 - (c.compressed_bit_count - 8)) else 0) =
      2 ^ (c.compressed_bit_count - 8) - 1 := by
    by_cases h0 : 0 < c.compressed_bit_count - 8
    · rw [if_pos h0, mask_eq (by omega)]
    · rw [if_neg h0]
      have : c.compressed_bit_count - 8 = 0 := by omega
      rw [this]
      rfl
  simp only [hmask, Nat.and_pow_two_sub_one_eq_mod]

theorem read_byte_err (c : CompressorBuffer) (h : 40 ≤ c.compressed_bit_count) :
    c.read_byte = .error "attempt to shift right with overflow" := by
  unfold CompressorBuffer.read_byte
  rw [if_neg (by omega), if_pos (by omega)]

/-! ## Equality of the inline (`lib.rs`) and modular operations -/

theorem lib_buffer_write_eq (c : CompressorBuffer) (v bc : Nat) :
    Lib.buffer_write c v bc = c.write_bits v bc := rfl

theorem lib_get_compressed_byte_eq (c : CompressorBuffer) :
    Lib.get_compressed_byte c = c.read_byte := by
  unfold Lib.get_compressed_byte Lib.buffer_read_byte CompressorBuffer.read_byte
  by_cases h8 : c.compressed_bit_count < 8
  · rw [if_pos h8, if_pos h8]
  · rw [if_neg h8, if_neg h8, if_neg h8]
    by_cases h32 : 32 ≤ c.compressed_bit_count - 8
    · rw [if_pos h32, if_pos h32]; rfl
    · rw [if_neg h32, if_neg h32]; rfl

theorem lib_compress_byte_eq (t : HuffmanTable) (c : CompressorBuffer) (byte : Fin 256) :
    Lib.compress_byte t c byte = Modular.compress_byte t c byte := rfl

theorem lib_append_terminal_code_eq (c : CompressorBuffer) (tc : TerminalCode) :
    Lib.append_terminal_code c tc = Modular.append_terminal_code c tc := rfl

theorem lib_finish_eq (c : CompressorBuffer) : Lib.finish c = Modular.finish c := rfl

theorem drainAux_eq (fuel : Nat) : ∀ c out,
    Modular.drainAux fuel c out = Lib.drainAux fuel c out := by
  induction fuel with
  | zero => intro c out; rfl
  | succ fuel ih =>
    intro c out
    unfold Modular.drainAux Lib.drainAux
    have hg : Modular.get_compressed_byte c = Lib.get_compressed_byte c := by
      rw [lib_get_compressed_byte_eq]; rfl
    rw [hg]
    cases Lib.get_compressed_byte c with
    | error e => rfl
    | ok p =>
      obtain ⟨o, c1⟩ := p
      cases o with
      | none => rfl
      | some v => simpa using ih c1 (out ++ [v])

theorem drain_eq (c : CompressorBuffer) (out : List Nat) :
    Modular.drain c out = Lib.drain c out :=
  drainAux_eq _ c out

theorem compressLoop_eq (t : HuffmanTable) : ∀ src c out,
    Modular.compressLoop t src c out = Lib.compressLoop t src c out := by
  intro src
  induction src with
  | nil => intro c out; rfl
  | cons b rest ih =>
    intro c out
    unfold Modular.compressLoop Lib.compressLoop
    rw [← lib_compress_byte_eq]
    cases Lib.compress_byte t c b with
    | error e => rfl
    | ok c1 =>
      simp only [drain_eq]
      cases Lib.drain c1 out with
      | error e => rfl
      | ok p => exact ih p.2 p.1

theorem modular_compress_eq (h : Huffman) (src : List (Fin 256)) (output : List Nat) :
    Modular.compress h src output = h.compress src output := by
  unfold Modular.compress Huffman.compress
  rw [compressLoop_eq]
  cases Lib.compressLoop h.table src CompressorBuffer.new output with
  | error e => rfl
  | ok p =>
    obtain ⟨output1, c1⟩ := p
    have hterm : (match h.terminal_code with
        | some tc => Modular.append_terminal_code c1 tc
        | none => .ok c1) =
        (match h.terminal_code with
        | some tc => Lib.append_terminal_code c1 tc
        | none => .ok c1) := by
      cases h.terminal_code <;> rfl
    simp only [hterm]
    cases (match h.terminal_code with
        | some tc => Lib.append_terminal_code c1 tc
        | none => (.ok c1 : Except String CompressorBuffer)) with
    | error e => rfl
    | ok c2 =>
      simp only [← lib_finish_eq]
      cases Lib.finish c2 with
      | error e => rfl
      | ok c3 => simp only [drain_eq]

/-! ## Drain-loop lemmas -/

theorem drainAux_ok (fuel : Nat) : ∀ c out,
    c.compressed_bit_count ≤ 39 → c.compressed_bit_count ≤ fuel →
    ∃ res c', Lib.drainAux fuel c out = .ok (res, c') ∧
      c'.compressed_bit_count = c.compressed_bit_count % 8 := by
  induction fuel with
  | zero =>
    intro c out _ hf
    refine ⟨out, c, rfl, ?_⟩
    omega
  | succ fuel ih =>
    intro c out h39 hf
    unfold Lib.drainAux
    rw [lib_get_compressed_byte_eq]
    by_cases h8 : c.compressed_bit_count < 8
    · rw [read_byte_lt c h8]
      exact ⟨out, c, rfl, by omega⟩
    · rw [read_byte_ok c (by omega) h39]
      obtain ⟨res, c', hrun, hcount⟩ :=
        ih { compressed_bits := c.compressed_bits % 2 ^ (c.compressed_bit_count - 8),
             compressed_bit_count := c.compressed_bit_count - 8 }
           (out ++ [(c.compressed_bits >>> (c.compressed_bit_count - 8)) % 256])
           (by simp; omega) (by simp; omega)
      refine ⟨res, c', hrun, ?_⟩
      simp at hcount
      omega

theorem drain_ok (c : CompressorBuffer) (out : List Nat)
    (h39 : c.compressed_bit_count ≤ 39) :
    ∃ res c', Lib.drain c out = .ok (res, c') ∧
      c'.compressed_bit_count = c.compressed_bit_count % 8 :=
  drainAux_ok c.compressed_bit_count c out h39 le_rfl

theorem drainAux_spec (fuel : Nat) : ∀ c out,
    c.compressed_bit_count ≤ 39 → c.compressed_bit_count ≤ fuel →
    c.compressed_bits < 2 ^ c.compressed_bit_count →
    ∃ produced c', Lib.drainAux fuel c out = .ok (out ++ produced, c') ∧
      c'.compressed_bit_count = c.compressed_bit_count % 8 ∧
      c'.compressed_bits < 2 ^ c'.compressed_bit_count ∧
      bitstream produced ++ accBits c' = accBits c := by
  induction fuel with
  | zero =>
    intro c out _ hf hinv
    have h0 : c.compressed_bit_count = 0 := by omega
    refine ⟨[], c, by simp [Lib.drainAux], by omega, hinv, ?_⟩
    simp [bitstream]
  | succ fuel ih =>
    intro c out h39 hf hinv
    unfold Lib.drainAux
    rw [lib_get_compressed_byte_eq]
    by_cases h8 : c.compressed_bit_count < 8
    · rw [read_byte_lt c h8]
      refine ⟨[], c, by simp, by omega, hinv, ?_⟩
      simp [bitstream]
    · rw [read_byte_ok c (by omega) h39]
      obtain ⟨d, hd⟩ : ∃ d, c.compressed_bit_count - 8 = d := ⟨_, rfl⟩
      rw [hd]
      have hcd : c.compressed_bit_count = 8 + d := by omega
      set q := c.compressed_bits >>> d with hq
      set r := c.compressed_bits % 2 ^ d with hr
      have hqlt : q < 2 ^ 8 := by
        rw [hq, Nat.shiftRight_eq_div_pow]
        rw [Nat.div_lt_iff_lt_mul (Nat.two_pow_pos _), ← pow_add]
        rw [← hcd]
        exact hinv
      have hv : q % 256 = q := Nat.mod_eq_of_lt hqlt
      have hrlt : r < 2 ^ d := Nat.mod_lt _ (Nat.two_pow_pos _)
      obtain ⟨produced', c', hrun, hcount, hinv', heq⟩ :=
        ih { compressed_bits := r, compressed_bit_count := d }
           (out ++ [q % 256]) (by simp; omega) (by simp; omega) (by simpa using hrlt)
      refine ⟨q % 256 :: produced', c', ?_, ?_, hinv', ?_⟩
      · simp only [hrun]
        simp
      · simp at hcount
        omega
      · have hsplit : accBits c = byteBits q ++ bitsOf r d := by
          unfold accBits byteBits
          have hdecomp : c.compressed_bits = q * 2 ^ d + r := by
            rw [hq, hr, Nat.shiftRight_eq_div_pow]
            exact (Nat.div_add_mod' _ _).symm
          rw [hcd, hdecomp]
          exact bitsOf_append q 8 hrlt
        have hacc1 : accBits { compressed_bits := r, compressed_bit_count := d } =
            bitsOf r d := rfl
        rw [hacc1] at heq
        calc bitstream (q % 256 :: produced') ++ accBits c'
            = byteBits (q % 256) ++ (bitstream produced' ++ accBits c') := by
              simp [bitstream]
          _ = byteBits q ++ bitsOf r d := by rw [heq, hv]
          _ = accBits c := hsplit.symm

theorem drain_spec (c : CompressorBuffer) (out : List Nat)
    (h39 : c.compressed_bit_count ≤ 39)
    (hinv : c.compressed_bits < 2 ^ c.compressed_bit_count) :
    ∃ produced c', Lib.drain c out = .ok (out ++ produced, c') ∧
      c'.compressed_bit_count = c.compressed_bit_count % 8 ∧
      c'.compressed_bits < 2 ^ c'.compressed_bit_count ∧
      bitstream produced ++ accBits c' = accBits c :=
  drainAux_spec c.compressed_bit_count c out h39 le_rfl hinv

/-! ## Output accumulation: the driver only appends -/

theorem drainAux_append (fuel : Nat) : ∀ c out,
    Lib.drainAux fuel c out = (Lib.drainAux fuel c []).map (fun p => (out ++ p.1, p.2)) := by
  induction fuel with
  | zero => intro c out; simp [Lib.drainAux, Except.map]
  | succ fuel ih =>
    intro c out
    unfold Lib.drainAux
    cases Lib.get_compressed_byte c with
    | error e => rfl
    | ok p =>
      obtain ⟨o, c1⟩ := p
      cases o with
      | none => simp [Except.map]
      | some v =>
        simp only []
        rw [ih c1 (out ++ [v]), ih c1 ([] ++ [v])]
        cases Lib.drainAux fuel c1 [] <;> simp [Except.map]

theorem drain_append (c : CompressorBuffer) (out : List Nat) :
    Lib.drain c out = (Lib.drain c []).map (fun p => (out ++ p.1, p.2)) :=
  drainAux_append c.compressed_bit_count c out

theorem compressLoop_append (t : HuffmanTable) : ∀ src c out,
    Lib.compressLoop t src c out =
      (Lib.compressLoop t src c []).map (fun p => (out ++ p.1, p.2)) := by
  intro src
  induction src with
  | nil => intro c out; simp [Lib.compressLoop, Except.map]
  | cons b rest ih =>
    intro c out
    unfold Lib.compressLoop
    cases Lib.compress_byte t c b with
    | error e => rfl
    | ok c1 =>
      simp only []
      rw [drain_append c1 out, drain_append c1 []]
      cases Lib.drain c1 [] with
      | error e => rfl
      | ok p =>
        obtain ⟨o1, c2⟩ := p
        simp only [Except.map, List.nil_append]
        rw [ih c2 (out ++ o1), ih c2 o1]
        cases Lib.compressLoop t rest c2 [] <;> simp [Except.map]

theorem compress_append (h : Huffman) (src : List (Fin 256)) (out : List Nat) :
    h.compress src out = (h.compress src []).map (fun o => out ++ o) := by
  unfold Huffman.compress
  rw [compressLoop_append h.table src CompressorBuffer.new out]
  cases Lib.compressLoop h.table src CompressorBuffer.new [] with
  | error e => rfl
  | ok p =>
    obtain ⟨o1, c1⟩ := p
    simp only [Except.map, List.nil_append]
    cases (match h.terminal_code with
        | some tc => Lib.append_terminal_code c1 tc
        | none => (.ok c1 : Except String CompressorBuffer)) with
    | error e => rfl
    | ok c2 =>
      simp only []
      cases Lib.finish c2 with
      | error e => rfl
      | ok c3 =>
        simp only []
        rw [drain_append c3 (out ++ o1), drain_append c3 o1]
        cases Lib.drain c3 [] <;> simp [Except.map]

/-! ## Per-byte loop lemmas -/

theorem write_bits_eq_ok {c c1 : CompressorBuffer} {v bc : Nat}
    (h : c.write_bits v bc = .ok c1) :
    bc < 32 ∧ c.compressed_bit_count + bc < 256 := by
  unfold CompressorBuffer.write_bits at h
  by_cases h1 : 32 ≤ bc
  · rw [if_pos h1] at h; exact absurd h (by simp)
  · rw [if_neg h1] at h
    by_cases h2 : 256 ≤ c.compressed_bit_count + bc
    · rw [if_pos h2] at h; exact absurd h (by simp)
    · exact ⟨by omega, by omega⟩

theorem write_val_lt {bits count v bc : Nat} (hinv : bits < 2 ^ count) (hv : v < 2 ^ bc) :
    bits * 2 ^ bc + v < 2 ^ (count + bc) := by
  have h1 : bits + 1 ≤ 2 ^ count := hinv
  calc bits * 2 ^ bc + v
      < bits * 2 ^ bc + 2 ^ bc := by omega
    _ = (bits + 1) * 2 ^ bc := by ring
    _ ≤ 2 ^ count * 2 ^ bc := Nat.mul_le_mul_right _ h1
    _ = 2 ^ (count + bc) := by rw [← pow_add]

theorem compressLoop_spec (t : HuffmanTable) (hfit : TableFits t) : ∀ src c out res c',
    c.compressed_bit_count < 8 →
    c.compressed_bits < 2 ^ c.compressed_bit_count →
    writesOkGo t c.compressed_bit_count src = true →
    Lib.compressLoop t src c out = .ok (res, c') →
    ∃ produced, res = out ++ produced ∧
      c'.compressed_bit_count < 8 ∧
      c'.compressed_bits < 2 ^ c'.compressed_bit_count ∧
      bitstream produced ++ accBits c' = accBits c ++ src.flatMap (codeBits t) := by
  intro src
  induction src with
  | nil =>
    intro c out res c' h8 hinv _ hok
    unfold Lib.compressLoop at hok
    simp only [Except.ok.injEq, Prod.mk.injEq] at hok
    obtain ⟨hres, hc⟩ := hok
    subst hres; subst hc
    exact ⟨[], by simp, h8, hinv, by simp [bitstream]⟩
  | cons b rest ih =>
    intro c out res c' h8 hinv hwok hok
    unfold Lib.compressLoop at hok
    simp only [writesOkGo, Bool.and_eq_true, decide_eq_true_eq] at hwok
    obtain ⟨hle, hwok'⟩ := hwok
    cases hw : Lib.compress_byte t c b with
    | error e => rw [hw] at hok; exact absurd hok (by simp)
    | ok c1 =>
      rw [hw] at hok
      simp only [] at hok
      have hbc32 : t.bit_counts b < 32 := (write_bits_eq_ok hw).1
      have hc1 : c1 = { compressed_bits := c.compressed_bits * 2 ^ t.bit_counts b + t.values b,
                        compressed_bit_count := c.compressed_bit_count + t.bit_counts b } := by
        have := write_bits_ok_val c (hfit b).1 hinv (by omega) hbc32
        rw [lib_compress_byte_eq] at hw
        unfold Modular.compress_byte HuffmanTable.get_compressed_value
          HuffmanTable.get_compressed_value_bit_count at hw
        rw [this] at hw
        exact (Except.ok.injEq _ _ ▸ hw.symm)
      have hinv1 : c1.compressed_bits < 2 ^ c1.compressed_bit_count := by
        rw [hc1]
        exact write_val_lt hinv (hfit b).1
      have hcount1 : c1.compressed_bit_count = c.compressed_bit_count + t.bit_counts b := by
        rw [hc1]
      obtain ⟨produced1, c2, hdrain, hcount2, hinv2, heq2⟩ :=
        drain_spec c1 out (by omega) hinv1
      rw [hdrain] at hok
      simp only [] at hok
      obtain ⟨produced2, hres, hc8', hinv', heq'⟩ :=
        ih c2 (out ++ produced1) res c'
          (by omega)
          hinv2
          (by rw [hcount2, hcount1]; exact hwok')
          hok
      refine ⟨produced1 ++ produced2, by rw [hres, List.append_assoc], hc8', hinv', ?_⟩
      have hacc1 : accBits c1 = accBits c ++ codeBits t b := by
        rw [hc1]
        exact accBits_write c (hfit b).1
      calc bitstream (produced1 ++ produced2) ++ accBits c'
          = bitstream produced1 ++ (bitstream produced2 ++ accBits c') := by
            rw [bitstream_append, List.append_assoc]
        _ = bitstream produced1 ++ (accBits c2 ++ rest.flatMap (codeBits t)) := by rw [heq']
        _ = (bitstream produced1 ++ accBits c2) ++ rest.flatMap (codeBits t) := by
            rw [List.append_assoc]
        _ = accBits c1 ++ rest.flatMap (codeBits t) := by rw [heq2]
        _ = accBits c ++ (b :: rest).flatMap (codeBits t) := by
            rw [hacc1]
            simp [codeBits]

theorem compressLoop_ok (t : HuffmanTable) (hbc : ∀ b : Fin 256, t.bit_counts b ≤ 25) :
    ∀ src c out, c.compressed_bit_count ≤ 7 →
    ∃ res c', Lib.compressLoop t src c out = .ok (res, c') ∧
      c'.compressed_bit_count ≤ 7 := by
  intro src
  induction src with
  | nil =>
    intro c out h7
    exact ⟨out, c, rfl, h7⟩
  | cons b rest ih =>
    intro c out h7
    unfold Lib.compressLoop
    have hw : Lib.compress_byte t c b =
        .ok { compressed_bits := ((c.compressed_bits <<< t.bit_counts b) % 2 ^ 32) ||| t.values b,
              compressed_bit_count := c.compressed_bit_count + t.bit_counts b } := by
      rw [lib_compress_byte_eq]
      unfold Modular.compress_byte HuffmanTable.get_compressed_value
        HuffmanTable.get_compressed_value_bit_count
      exact write_bits_ok c _ _ (by have := hbc b; omega) (by have := hbc b; omega)
    rw [hw]
    simp only []
    obtain ⟨res1, c2, hdrain, hcount2⟩ :=
      drain_ok { compressed_bits := ((c.compressed_bits <<< t.bit_counts b) % 2 ^ 32) ||| t.values b,
                 compressed_bit_count := c.compressed_bit_count + t.bit_counts b } out
        (by simp; have := hbc b; omega)
    rw [hdrain]
    simp only []
    exact ih c2 res1 (by simp at hcount2; omega)

/-! ## End-of-run padding and the full compress run -/

theorem length_accBits (c : CompressorBuffer) :
    (accBits c).length = c.compressed_bit_count :=
  length_bitsOf _ _

theorem finish_spec (c : CompressorBuffer) (h32 : c.compressed_bit_count ≤ 32)
    (hinv : c.compressed_bits < 2 ^ c.compressed_bit_count) :
    ∃ c', Lib.finish c = .ok c' ∧
      c'.compressed_bit_count =
        c.compressed_bit_count + (8 - c.compressed_bit_count % 8) % 8 ∧
      accBits c' = accBits c ++
        List.replicate ((8 - c.compressed_bit_count % 8) % 8) false ∧
      c'.compressed_bits < 2 ^ c'.compressed_bit_count := by
  by_cases h0 : c.compressed_bit_count % 8 = 0
  · refine ⟨c, ?_, by omega, ?_, hinv⟩
    · simp only [Lib.finish]
      rw [if_neg (by omega)]
    · have hpad : (8 - c.compressed_bit_count % 8) % 8 = 0 := by omega
      rw [hpad]
      simp
  · have hk : 8 - c.compressed_bit_count % 8 < 32 := by omega
    have hle : c.compressed_bit_count + (8 - c.compressed_bit_count % 8) ≤ 32 := by omega
    have hwrite := write_bits_ok_val c (v := 0)
      (Nat.pos_pow_of_pos _ (by norm_num)) hinv hle hk
    refine ⟨{ compressed_bits := c.compressed_bits * 2 ^ (8 - c.compressed_bit_count % 8) + 0,
              compressed_bit_count :=
                c.compressed_bit_count + (8 - c.compressed_bit_count % 8) }, ?_, ?_, ?_, ?_⟩
    · simp only [Lib.finish]
      rw [if_pos (by omega), lib_buffer_write_eq, hwrite]
    · simp only []
      omega
    · have hrep :
          accBits { compressed_bits := c.compressed_bits * 2 ^ (8 - c.compressed_bit_count % 8) + 0,
                    compressed_bit_count := c.compressed_bit_count + (8 - c.compressed_bit_count % 8) } =
            accBits c ++ bitsOf 0 (8 - c.compressed_bit_count % 8) :=
        accBits_write c (Nat.pos_pow_of_pos _ (by norm_num))
      rw [hrep, bitsOf_zero]
      have : (8 - c.compressed_bit_count % 8) % 8 = 8 - c.compressed_bit_count % 8 := by omega
      rw [this]
    · simp only []
      exact write_val_lt hinv (Nat.pos_pow_of_pos _ (by norm_num))

theorem compress_spec (h : Huffman) (src : List (Fin 256)) (out : List Nat)
    (hfit : TableFits h.table) (hmfit : MarkerFits h.terminal_code)
    (hw : writesOk h.table h.terminal_code src = true)
    (hok : h.compress src [] = .ok out) :
    bitstream out = src.flatMap (codeBits h.table) ++ markerBits h.terminal_code ++
      List.replicate
        ((8 - (totalBitCount h.table src + markerLen h.terminal_code) % 8) % 8) false := by
  unfold Huffman.compress at hok
  cases hl : Lib.compressLoop h.table src CompressorBuffer.new [] with
  | error e => rw [hl] at hok; exact absurd hok (by simp)
  | ok p =>
    obtain ⟨o1, c1⟩ := p
    rw [hl] at hok
    simp only [] at hok
    have hwg : writesOkGo h.table 0 src = true := by
      unfold writesOk at hw
      simp only [Bool.and_eq_true] at hw
      exact hw.1
    obtain ⟨p1, ho1, hc1lt, hinv1, heq1⟩ :=
      compressLoop_spec h.table hfit src CompressorBuffer.new [] o1 c1
        (by simp [CompressorBuffer.new]) (by simp [CompressorBuffer.new]) hwg hl
    have haccnew : accBits CompressorBuffer.new = [] := rfl
    rw [haccnew, List.nil_append] at heq1
    rw [List.nil_append] at ho1
    rw [← ho1] at heq1
    have hc1count : c1.compressed_bit_count = totalBitCount h.table src % 8 := by
      have hlen := congrArg List.length heq1
      rw [List.length_append, bitstream_length, length_accBits,
        length_flatMap_codeBits] at hlen
      omega
    cases hterm : (match h.terminal_code with
        | some tc => Lib.append_terminal_code c1 tc
        | none => (.ok c1 : Except String CompressorBuffer)) with
    | error e => rw [hterm] at hok; exact absurd hok (by simp)
    | ok c2 =>
      rw [hterm] at hok
      simp only [] at hok
      have hstage2 : accBits c2 = accBits c1 ++ markerBits h.terminal_code ∧
          c2.compressed_bit_count =
            c1.compressed_bit_count + markerLen h.terminal_code ∧
          c2.compressed_bit_count ≤ 32 ∧
          c2.compressed_bits < 2 ^ c2.compressed_bit_count := by
        cases hm : h.terminal_code with
        | none =>
          rw [hm] at hterm
          simp only [Except.ok.injEq] at hterm
          subst hterm
          simp only [markerBits, markerLen]
          exact ⟨by simp, by omega, by omega, hinv1⟩
        | some tc =>
          rw [hm] at hterm
          have hterm' : c1.write_bits tc.value tc.bit_count = .ok c2 := hterm
          have hbc : tc.bit_count < 32 := (write_bits_eq_ok hterm').1
          have hmk : tc.value < 2 ^ tc.bit_count := by
            rw [hm] at hmfit
            exact hmfit.1
          have hcnt : c1.compressed_bit_count + tc.bit_count ≤ 32 := by
            unfold writesOk at hw
            rw [hm] at hw
            simp only [Bool.and_eq_true, decide_eq_true_eq] at hw
            omega
          rw [write_bits_ok_val c1 hmk hinv1 hcnt hbc] at hterm'
          simp only [Except.ok.injEq] at hterm'
          subst hterm'
          refine ⟨?_, by simp [markerLen], by simp; omega, write_val_lt hinv1 hmk⟩
          rw [accBits_write c1 hmk]
          simp [markerBits]
      obtain ⟨hacc2, hcount2, hle2, hinv2⟩ := hstage2
      obtain ⟨c3, hfin, hcount3, hacc3, hinv3⟩ := finish_spec c2 hle2 hinv2
      rw [hfin] at hok
      simp only [] at hok
      obtain ⟨p2, c4, hdrain, hcount4, _, heq4⟩ := drain_spec c3 o1 (by omega) hinv3
      rw [hdrain] at hok
      simp only [Except.map, Except.ok.injEq] at hok
      subst hok
      have hacc4 : accBits c4 = [] := by
        apply List.eq_nil_of_length_eq_zero
        rw [length_accBits, hcount4]
        omega
      rw [hacc4, List.append_nil] at heq4
      have hmod : c2.compressed_bit_count % 8 =
          (totalBitCount h.table src + markerLen h.terminal_code) % 8 := by
        omega
      calc bitstream (o1 ++ p2)
          = bitstream o1 ++ bitstream p2 := bitstream_append o1 p2
        _ = bitstream o1 ++ accBits c3 := by rw [heq4]
        _ = bitstream o1 ++ (accBits c2 ++
              List.replicate ((8 - c2.compressed_bit_count % 8) % 8) false) := by rw [hacc3]
        _ = bitstream o1 ++ (accBits c1 ++ markerBits h.terminal_code ++
              List.replicate ((8 - c2.compressed_bit_count % 8) % 8) false) := by rw [hacc2]
        _ = (bitstream o1 ++ accBits c1) ++ markerBits h.terminal_code ++
              List.replicate ((8 - c2.compressed_bit_count % 8) % 8) false := by
            simp [List.append_assoc]
        _ = src.flatMap (codeBits h.table) ++ markerBits h.terminal_code ++
              List.replicate
                ((8 - (totalBitCount h.table src + markerLen h.terminal_code) % 8) % 8)
                false := by rw [heq1, hmod]

/-! ## Claim theorems -/

/-- Claim C1: bit-order preservation of compress. For every table, optional
terminal marker and non-empty input, when every code and the marker fit their
declared bit lengths, no intermediate write exceeds 32 live bits, and
`Huffman::compress` produces an output byte sequence, that output read
bit-by-bit MSB-first equals the concatenation of each input byte's table code
(MSB-first, in input order), followed by the marker's bits when configured,
followed by zero padding to the next byte boundary. -/
theorem compress_bit_order (t : HuffmanTable) (marker : Option TerminalCode)
    (src : List (Fin 256)) (out : List Nat)
    (hfit : TableFits t) (hmfit : MarkerFits marker)
    (hwrites : writesOk t marker src = true)
    (_hne : src ≠ [])
    (hok : (Huffman.new t marker).compress src [] = .ok out) :
    bitstream out = src.flatMap (codeBits t) ++ markerBits marker ++
      List.replicate ((8 - (totalBitCount t src + markerLen marker) % 8) % 8) false :=
  compress_spec (Huffman.new t marker) src out hfit hmfit hwrites hok

/-- Witness for C1 at the code-spanning test case of the crate:
`0xDB ↦ (0b11111, 5)`, input `[0xDB, 0xDB]`, output `[0b11111111, 0b11000000]`. -/
theorem compress_bit_order_witness :
    bitstream [255, 192] =
      ([(0xDB : Fin 256), 0xDB]).flatMap (codeBits exampleTable) ++ markerBits none ++
        List.replicate
          ((8 - (totalBitCount exampleTable [(0xDB : Fin 256), 0xDB] + markerLen none) % 8) % 8)
          false :=
  compress_bit_order exampleTable none [0xDB, 0xDB] [255, 192]
    (by decide) (by decide) (by decide) (by decide) (by decide)

/-- Claim C2 counterexample: from a state with 20 unflushed bits, a write of
20 more bits makes the cumulative unflushed bits 40 > 32, yet `write_bits`
returns successfully instead of aborting at that write. -/
theorem write_overflow_not_fatal_counterexample :
    32 < (CompressorBuffer.mk 0 20).compressed_bit_count + 20 ∧
    (CompressorBuffer.mk 0 20).write_bits 0 20 = .ok (CompressorBuffer.mk 0 40) := by
  decide

/-- Claim C2 (amended): a write whose declared bit length is 32 (or more)
aborts at that write; a write with bit length below 32 never aborts while the
fill counter stays in u8 range, even when the cumulative unflushed bits
exceed 32 — the bits shifted past bit 31 are silently discarded — and an
over-full accumulator instead aborts at a subsequent `read_byte` exactly
once the fill count is at least 40. -/
theorem write_overflow_behavior (c : CompressorBuffer) (v bc : Nat) :
    (32 ≤ bc → c.write_bits v bc = .error "attempt to shift left with overflow") ∧
    (bc < 32 → c.compressed_bit_count + bc < 256 → (c.write_bits v bc).isOk = true) ∧
    (40 ≤ c.compressed_bit_count →
      c.read_byte = .error "attempt to shift right with overflow") := by
  refine ⟨fun h1 => write_bits_err c v bc h1, fun h1 h2 => ?_, fun h1 => read_byte_err c h1⟩
  rw [write_bits_ok c v bc h1 h2]
  rfl

/-- Witness for the amended C2: a 32-bit write aborts immediately; a 20-bit
write onto 20 queued bits succeeds; a read at fill count 40 aborts. -/
theorem write_overflow_behavior_witness :
    (CompressorBuffer.mk 0 0).write_bits 0 32 = .error "attempt to shift left with overflow" ∧
    ((CompressorBuffer.mk 0 20).write_bits 0 20).isOk = true ∧
    (CompressorBuffer.mk 0 40).read_byte = .error "attempt to shift right with overflow" :=
  ⟨(write_overflow_behavior (CompressorBuffer.mk 0 0) 0 32).1 (by decide),
   (write_overflow_behavior (CompressorBuffer.mk 0 20) 0 20).2.1 (by decide) (by decide),
   (write_overflow_behavior (CompressorBuffer.mk 0 40) 0 0).2.2 (by decide)⟩

/-- Claim C3: `compress` is a pure function of (table, terminal marker, input
bytes). The compressor is rebuilt from the empty accumulator inside every
call, so a call starting from any previously produced `output` contents
appends exactly the bytes of the same call on an empty output — the appended
bytes do not depend on what earlier calls processed — and dropping the
pre-existing prefix yields the same appended sequence for any two prior
output contexts. -/
theorem compress_pure_of_inputs (h : Huffman) (src : List (Fin 256))
    (output1 output2 : List Nat) :
    h.compress src output1 = (h.compress src []).map (fun o => output1 ++ o) ∧
    (h.compress src output1).map (fun o => o.drop output1.length) =
      (h.compress src output2).map (fun o => o.drop output2.length) := by
  refine ⟨compress_append h src output1, ?_⟩
  rw [compress_append h src output1, compress_append h src output2]
  cases h.compress src [] <;> simp [Except.map]

/-- Claim C4: `read_byte` semantics. On any state whose register respects the
fill count and whose fill count is at most 32: below 8 queued bits it returns
nothing and leaves the state unchanged; otherwise it decreases the fill count
by 8, returns the oldest 8 queued bits (the register shifted right by the new
fill count) and masks the register to its remaining low bits. -/
theorem read_byte_spec (c : CompressorBuffer)
    (h32 : c.compressed_bit_count ≤ 32)
    (hinv : c.compressed_bits < 2 ^ c.compressed_bit_count) :
    (c.compressed_bit_count < 8 → c.read_byte = .ok (none, c)) ∧
    (8 ≤ c.compressed_bit_count →
      c.read_byte = .ok
        (some (c.compressed_bits >>> (c.compressed_bit_count - 8)),
         { compressed_bits := c.compressed_bits % 2 ^ (c.compressed_bit_count - 8),
           compressed_bit_count := c.compressed_bit_count - 8 })) := by
  refine ⟨read_byte_lt c, fun h8 => ?_⟩
  rw [read_byte_ok c h8 (by omega)]
  have hq : c.compressed_bits >>> (c.compressed_bit_count - 8) < 256 := by
    rw [Nat.shiftRight_eq_div_pow, Nat.div_lt_iff_lt_mul (Nat.two_pow_pos _)]
    calc c.compressed_bits < 2 ^ c.compressed_bit_count := hinv
      _ = 256 * 2 ^ (c.compressed_bit_count - 8) := by
          rw [show (256 : Nat) = 2 ^ 8 by norm_num, ← pow_add]
          congr 1
          omega
  rw [Nat.mod_eq_of_lt hq]

/-- Witness for C4 at the state (register 0b110000001, fill 10): the oldest
byte 0b01100000 = 96 is returned and the two youngest bits 0b01 remain. -/
theorem read_byte_spec_witness :
    (CompressorBuffer.mk 385 10).read_byte = .ok (some 96, CompressorBuffer.mk 1 2) := by
  have h := (read_byte_spec (CompressorBuffer.mk 385 10) (by decide) (by decide)).2 (by decide)
  exact h.trans (by decide)

/-- Claim C5 counterexample: at fill count 0 with bit length 32 the claimed
precondition `fill_count + bit_length ≤ 32` holds and value 0 has no set bits
at or above position 32, yet `write_bits` aborts with a shift overflow
instead of appending the bits. -/
theorem write_bits_claim_counterexample :
    (CompressorBuffer.mk 0 0).compressed_bit_count + 32 ≤ 32 ∧ (0 : Nat) < 2 ^ 32 ∧
    (CompressorBuffer.mk 0 0).write_bits 0 32 = .error "attempt to shift left with overflow" := by
  refine ⟨by decide, ?_, by decide⟩
  norm_num

/-- Claim C5 (amended): write semantics, additionally requiring
`bit_length < 32` (at `bit_length = 32`, reachable under the original
precondition only with an empty accumulator, the write aborts instead).
Under `fill_count + bit_length ≤ 32`, `bit_length < 32`, a value fitting its
declared length and a register respecting the fill count, `write_bits` sets
the register to `(old_register <<< bit_length) ||| value`, increases the fill
count by exactly `bit_length`, and thereby appends the low `bit_length` bits
of `value` at the low end of the queue, keeping all previously queued bits
intact in order. -/
theorem write_bits_spec (c : CompressorBuffer) (v bc : Nat)
    (hle : c.compressed_bit_count + bc ≤ 32) (hbc : bc < 32)
    (hv : v < 2 ^ bc) (hinv : c.compressed_bits < 2 ^ c.compressed_bit_count) :
    ∃ c', c.write_bits v bc = .ok c' ∧
      c'.compressed_bits = (c.compressed_bits <<< bc) ||| v ∧
      c'.compressed_bit_count = c.compressed_bit_count + bc ∧
      accBits c' = accBits c ++ bitsOf v bc := by
  refine ⟨_, write_bits_ok_val c hv hinv hle hbc, ?_, rfl, accBits_write c hv⟩
  simp only []
  rw [Nat.shiftLeft_eq,
    Nat.mul_comm c.compressed_bits (2 ^ bc), ← Nat.mul_add_lt_is_or hv,
    Nat.mul_comm (2 ^ bc) c.compressed_bits]

/-- Witness for the amended C5: writing the two bits 0b11 onto three queued
bits 0b101 yields the five queued bits 0b10111. -/
theorem write_bits_spec_witness :
    ∃ c', (CompressorBuffer.mk 5 3).write_bits 3 2 = .ok c' ∧
      c'.compressed_bits = ((CompressorBuffer.mk 5 3).compressed_bits <<< 2) ||| 3 ∧
      c'.compressed_bit_count = (CompressorBuffer.mk 5 3).compressed_bit_count + 2 ∧
      accBits c' = accBits (CompressorBuffer.mk 5 3) ++ bitsOf 3 2 :=
  write_bits_spec (CompressorBuffer.mk 5 3) 3 2 (by decide) (by decide) (by decide) (by decide)

/-- Claim C6: end-of-run padding. For every accumulator state with fill count
at most 32, `Compressor::end` succeeds and leaves the fill count a multiple
of 8: it is the identity when the fill count is already a multiple of 8, and
otherwise writes exactly `8 - fill_count % 8` zero-valued bits; afterwards
repeated `read_byte` calls drain every remaining queued bit as full bytes,
emptying the accumulator to fill count 0. -/
theorem end_pads_to_byte_boundary (c : CompressorBuffer)
    (h32 : c.compressed_bit_count ≤ 32) :
    ∃ c', Modular.finish c = .ok c' ∧
      c'.compressed_bit_count % 8 = 0 ∧
      (c.compressed_bit_count % 8 = 0 → c' = c) ∧
      (c.compressed_bit_count % 8 ≠ 0 →
        c'.compressed_bit_count = c.compressed_bit_count + (8 - c.compressed_bit_count % 8) ∧
        accBits c' = accBits c ++ List.replicate (8 - c.compressed_bit_count % 8) false) ∧
      ∃ drained c'', Lib.drain c' [] = .ok (drained, c'') ∧
        c''.compressed_bit_count = 0 := by
  by_cases h0 : c.compressed_bit_count % 8 = 0
  · refine ⟨c, ?_, h0, fun _ => rfl, fun hne => absurd h0 hne, ?_⟩
    · simp only [Modular.finish, CompressorBuffer.byte_boundary_offset]
      rw [if_neg (by omega)]
    · obtain ⟨d, c'', hd, hcnt⟩ := drain_ok c [] (by omega)
      exact ⟨d, c'', hd, by omega⟩
  · have hk : 8 - c.compressed_bit_count % 8 < 32 := by omega
    have h256 : c.compressed_bit_count + (8 - c.compressed_bit_count % 8) < 256 := by omega
    have hw := write_bits_ok c 0 (8 - c.compressed_bit_count % 8) hk h256
    refine ⟨{ compressed_bits := ((c.compressed_bits <<< (8 - c.compressed_bit_count % 8)) % 2 ^ 32) ||| 0,
              compressed_bit_count := c.compressed_bit_count + (8 - c.compressed_bit_count % 8) },
            ?_, by simp only []; omega, fun h => absurd h h0,
            fun _ => ⟨by simp only [], ?_⟩, ?_⟩
    · simp only [Modular.finish, CompressorBuffer.byte_boundary_offset]
      rw [if_pos (by omega)]
      exact hw
    · unfold accBits
      simp only [Nat.or_zero]
      have h1 : bitsOf ((c.compressed_bits <<< (8 - c.compressed_bit_count % 8)) % 2 ^ 32)
          (c.compressed_bit_count + (8 - c.compressed_bit_count % 8)) =
          bitsOf (c.compressed_bits <<< (8 - c.compressed_bit_count % 8))
            (c.compressed_bit_count + (8 - c.compressed_bit_count % 8)) :=
        bitsOf_mod_ge _ 32 _ (by omega)
      have h2 : bitsOf (c.compressed_bits * 2 ^ (8 - c.compressed_bit_count % 8))
          (c.compressed_bit_count + (8 - c.compressed_bit_count % 8)) =
          bitsOf c.compressed_bits c.compressed_bit_count ++
            bitsOf 0 (8 - c.compressed_bit_count % 8) := by
        have h3 := bitsOf_append (v := 0) (n := 8 - c.compressed_bit_count % 8)
          c.compressed_bits c.compressed_bit_count (Nat.pos_pow_of_pos _ (by norm_num))
        simpa using h3
      rw [h1, Nat.shiftLeft_eq, h2, bitsOf_zero]
    · obtain ⟨d, c'', hd, hcnt⟩ :=
        drain_ok { compressed_bits := ((c.compressed_bits <<< (8 - c.compressed_bit_count % 8)) % 2 ^ 32) ||| 0,
                   compressed_bit_count := c.compressed_bit_count + (8 - c.compressed_bit_count % 8) }
          [] (by simp only []; omega)
      exact ⟨d, c'', hd, by simp only [] at hcnt; omega⟩

/-- Witness for C6 at the state (register 0b101, fill 3): padding writes five
zero bits and the drain then emits the single byte 0b10100000. -/
theorem end_pads_to_byte_boundary_witness :
    ∃ c', Modular.finish (CompressorBuffer.mk 5 3) = .ok c' ∧
      c'.compressed_bit_count % 8 = 0 ∧
      ((CompressorBuffer.mk 5 3).compressed_bit_count % 8 = 0 →
        c' = CompressorBuffer.mk 5 3) ∧
      ((CompressorBuffer.mk 5 3).compressed_bit_count % 8 ≠ 0 →
        c'.compressed_bit_count = (CompressorBuffer.mk 5 3).compressed_bit_count +
          (8 - (CompressorBuffer.mk 5 3).compressed_bit_count % 8) ∧
        accBits c' = accBits (CompressorBuffer.mk 5 3) ++
          List.replicate (8 - (CompressorBuffer.mk 5 3).compressed_bit_count % 8) false) ∧
      ∃ drained c'', Lib.drain c' [] = .ok (drained, c'') ∧
        c''.compressed_bit_count = 0 :=
  end_pads_to_byte_boundary (CompressorBuffer.mk 5 3) (by decide)

/-- Claim C7: the empty input with no terminal marker is a valid, error-free
case for every table: nothing is appended to the output (no padding, no
error), and with an empty output vector the result is the empty sequence. -/
theorem compress_empty_input (t : HuffmanTable) (output : List Nat) :
    (Huffman.new t none).compress [] [] = .ok [] ∧
    (Huffman.new t none).compress [] output = .ok output :=
  ⟨rfl, rfl⟩

/-- Claim C8: implicit no-panic bound. When every table entry's bit count and
the optional marker's bit count are at most 25, `Huffman::compress` never
hits an arithmetic or shift overflow on any input: the drain loop keeps the
fill count below 8 before each per-byte write, so the fill count never
exceeds 32 and the error branch of the embedding is unreachable. -/
theorem compress_no_overflow (t : HuffmanTable) (marker : Option TerminalCode)
    (src : List (Fin 256))
    (hbc : ∀ b : Fin 256, t.bit_counts b ≤ 25)
    (hm : ∀ tc, marker = some tc → tc.bit_count ≤ 25) :
    ∃ out, (Huffman.new t marker).compress src [] = .ok out := by
  obtain ⟨res, c1, hloop, hc1⟩ := compressLoop_ok t hbc src CompressorBuffer.new []
    (by simp [CompressorBuffer.new])
  unfold Huffman.compress
  try simp only [Huffman.new]
  rw [hloop]
  simp only []
  have hterm : ∃ c2, (match marker with
      | some tc => Lib.append_terminal_code c1 tc
      | none => (.ok c1 : Except String CompressorBuffer)) = .ok c2 ∧
      c2.compressed_bit_count ≤ 32 := by
    cases marker with
    | none => exact ⟨c1, rfl, by omega⟩
    | some tc =>
      have h25 : tc.bit_count ≤ 25 := hm tc rfl
      have hw := write_bits_ok c1 tc.value tc.bit_count (by omega) (by omega)
      exact ⟨_, hw, by simp; omega⟩
  obtain ⟨c2, hterm_eq, hc2⟩ := hterm
  rw [hterm_eq]
  simp only []
  have hfin : ∃ c3, Lib.finish c2 = .ok c3 ∧ c3.compressed_bit_count ≤ 39 := by
    by_cases h0 : c2.compressed_bit_count % 8 = 0
    · refine ⟨c2, ?_, by omega⟩
      simp only [Lib.finish]
      rw [if_neg (by omega)]
    · have hw := write_bits_ok c2 0 (8 - c2.compressed_bit_count % 8) (by omega) (by omega)
      refine ⟨{ compressed_bits := ((c2.compressed_bits <<< (8 - c2.compressed_bit_count % 8)) % 2 ^ 32) ||| 0,
                compressed_bit_count := c2.compressed_bit_count + (8 - c2.compressed_bit_count % 8) },
              ?_, ?_⟩
      · simp only [Lib.finish]
        rw [if_pos (by omega), lib_buffer_write_eq]
        exact hw
      · simp only []
        omega
  obtain ⟨c3, hfin_eq, hc3⟩ := hfin
  rw [hfin_eq]
  simp only []
  obtain ⟨d, c4, hd, _⟩ := drain_ok c3 res hc3
  rw [hd]
  exact ⟨d, rfl⟩

/-- Witness for C8: the example table (all bit counts at most 5) with a
3-bit marker compresses the input `[0x92, 0xDB]` without error. -/
theorem compress_no_overflow_witness :
    ∃ out, (Huffman.new exampleTable (some (TerminalCode.mk 3 5))).compress
      [(0x92 : Fin 256), 0xDB] [] = .ok out :=
  compress_no_overflow exampleTable (some (TerminalCode.mk 3 5)) [(0x92 : Fin 256), 0xDB]
    (by decide) (by intro tc h; injection h with h2; rw [← h2]; decide)

/-- Claim C9: the inline compressor of `lib.rs` and the modular
`Compressor`/`CompressorBuffer` implementation compute the same successor
state and values on every argument (write, guarded read, terminal append,
end), so the `Huffman::compress` driver produces identical output over
either implementation. -/
theorem inline_modular_equiv :
    (∀ c v bc, Lib.buffer_write c v bc = CompressorBuffer.write_bits c v bc) ∧
    (∀ c, Lib.get_compressed_byte c = CompressorBuffer.read_byte c) ∧
    (∀ t c byte, Lib.compress_byte t c byte = Modular.compress_byte t c byte) ∧
    (∀ c tc, Lib.append_terminal_code c tc = Modular.append_terminal_code c tc) ∧
    (∀ c, Lib.finish c = Modular.finish c) ∧
    (∀ h src output, Modular.compress h src output = h.compress src output) :=
  ⟨lib_buffer_write_eq, lib_get_compressed_byte_eq, lib_compress_byte_eq,
   lib_append_terminal_code_eq, lib_finish_eq, modular_compress_eq⟩

/-- Claim C10: the buffer invariant — no set bits in the register at or above
the fill count — holds for the freshly constructed buffer and is preserved by
`write_bits` (under `fill_count + bit_count ≤ 32` and a value fitting its
declared length), by `read_byte` and by `end`; `byte_boundary_offset` does
not modify the state. -/
theorem buffer_invariant (c : CompressorBuffer) :
    CompressorBuffer.new.compressed_bits < 2 ^ CompressorBuffer.new.compressed_bit_count ∧
    (∀ v bc c', c.compressed_bits < 2 ^ c.compressed_bit_count →
      c.compressed_bit_count + bc ≤ 32 → v < 2 ^ bc →
      c.write_bits v bc = .ok c' →
      c'.compressed_bits < 2 ^ c'.compressed_bit_count) ∧
    (∀ ob c', c.compressed_bits < 2 ^ c.compressed_bit_count →
      c.read_byte = .ok (ob, c') →
      c'.compressed_bits < 2 ^ c'.compressed_bit_count) ∧
    (∀ c', c.compressed_bits < 2 ^ c.compressed_bit_count →
      Modular.finish c = .ok c' →
      c'.compressed_bits < 2 ^ c'.compressed_bit_count) := by
  refine ⟨by decide, ?_, ?_, ?_⟩
  · intro v bc c' hinv hle hv hok
    have hbc : bc < 32 := (write_bits_eq_ok hok).1
    rw [write_bits_ok_val c hv hinv hle hbc] at hok
    simp only [Except.ok.injEq] at hok
    subst hok
    exact write_val_lt hinv hv
  · intro ob c' hinv hok
    by_cases h8 : c.compressed_bit_count < 8
    · rw [read_byte_lt c h8] at hok
      simp only [Except.ok.injEq, Prod.mk.injEq] at hok
      obtain ⟨_, h2⟩ := hok
      subst h2
      exact hinv
    · by_cases h39 : c.compressed_bit_count ≤ 39
      · rw [read_byte_ok c (by omega) h39] at hok
        simp only [Except.ok.injEq, Prod.mk.injEq] at hok
        obtain ⟨_, h2⟩ := hok
        subst h2
        simp only []
        exact Nat.mod_lt _ (Nat.two_pow_pos _)
      · rw [read_byte_err c (by omega)] at hok
        exact absurd hok (by simp)
  · intro c' hinv hok
    by_cases h0 : c.compressed_bit_count % 8 = 0
    · have hid : Modular.finish c = .ok c := by
        simp only [Modular.finish, CompressorBuffer.byte_boundary_offset]
        rw [if_neg (by omega)]
      rw [hid] at hok
      simp only [Except.ok.injEq] at hok
      subst hok
      exact hinv
    · have hfin : Modular.finish c = c.write_bits 0 (8 - c.compressed_bit_count % 8) := by
        simp only [Modular.finish, CompressorBuffer.byte_boundary_offset]
        rw [if_pos (by omega)]
      rw [hfin] at hok
      have hk : 8 - c.compressed_bit_count % 8 < 32 := by omega
      have h256 : c.compressed_bit_count + (8 - c.compressed_bit_count % 8) < 256 :=
        (write_bits_eq_ok hok).2
      rw [write_bits_ok c 0 _ hk h256] at hok
      simp only [Except.ok.injEq] at hok
      subst hok
      simp only [Nat.or_zero]
      by_cases hck : c.compressed_bit_count + (8 - c.compressed_bit_count % 8) ≤ 32
      · have hmle : (c.compressed_bits <<< (8 - c.compressed_bit_count % 8)) % 2 ^ 32 ≤
            c.compressed_bits <<< (8 - c.compressed_bit_count % 8) := Nat.mod_le _ _
        have hlt : c.compressed_bits <<< (8 - c.compressed_bit_count % 8) <
            2 ^ (c.compressed_bit_count + (8 - c.compressed_bit_count % 8)) := by
          rw [Nat.shiftLeft_eq, pow_add]
          exact Nat.mul_lt_mul_of_lt_of_le hinv (le_refl _) (Nat.two_pow_pos _)
        omega
      · have h32 : (c.compressed_bits <<< (8 - c.compressed_bit_count % 8)) % 2 ^ 32 <
            2 ^ 32 := Nat.mod_lt _ (by norm_num)
        have hle32 : (2 : Nat) ^ 32 ≤
            2 ^ (c.compressed_bit_count + (8 - c.compressed_bit_count % 8)) :=
          Nat.pow_le_pow_right (by norm_num) (by omega)
        omega

/-- Witness for C10: the fresh buffer satisfies the invariant, and concrete
write (0b11 onto 0b101), read (fill 12) and end (fill 3) steps preserve it. -/
theorem buffer_invariant_witness :
    CompressorBuffer.new.compressed_bits < 2 ^ CompressorBuffer.new.compressed_bit_count ∧
    (CompressorBuffer.mk 23 5).compressed_bits <
      2 ^ (CompressorBuffer.mk 23 5).compressed_bit_count ∧
    (CompressorBuffer.mk 12 4).compressed_bits <
      2 ^ (CompressorBuffer.mk 12 4).compressed_bit_count ∧
    (CompressorBuffer.mk 160 8).compressed_bits <
      2 ^ (CompressorBuffer.mk 160 8).compressed_bit_count :=
  ⟨(buffer_invariant (CompressorBuffer.mk 5 3)).1,
   (buffer_invariant (CompressorBuffer.mk 5 3)).2.1 3 2 (CompressorBuffer.mk 23 5)
     (by decide) (by decide) (by decide) (by decide),
   (buffer_invariant (CompressorBuffer.mk 2748 12)).2.2.1 (some 171) (CompressorBuffer.mk 12 4)
     (by decide) (by decide),
   (buffer_invariant (CompressorBuffer.mk 5 3)).2.2.2 (CompressorBuffer.mk 160 8)
     (by decide) (by decide)⟩

end HuffmanRS
